import Mathlib

/-!
Shallow embedding of the CSVd library (`src/csvd.cpp`, `include/csvd/csvd.hpp`):
a CSV reader/writer for tables of floating-point numbers.  Characters are
modelled as byte values (`Nat`), the input stream as the list of unread bytes
plus the eof/bad flags of `std::istream`, and the `double` cell values as exact
rationals.  The definitions follow the source function by function; theorems
about the claims of the specification follow the definitions.
-/

namespace Csvd

/-- Model of the `std::istream` state visible to the parser: the unread
characters, the eof flag (set when a read past the end was attempted) and the
bad flag.  The fail flag is omitted: the source only queries `eof()` and
`bad()`, and whenever the C++ stream would gain `failbit` it already has
`eofbit`, which makes all later operations fail in exactly the same way. -/
structure IStream where
  data : List Nat
  eofbit : Bool
  badbit : Bool
deriving DecidableEq, Repr

/-- The byte stored by `*itr = stream.get()` when `get` fails: `(char)EOF`,
i.e. byte 255 on the two's-complement platforms the source targets. -/
def eofByte : Nat := 255

/-- A fresh stream over the given bytes (no error flags set). -/
def mkStream (l : List Nat) : IStream := ⟨l, false, false⟩

def IStream.good (s : IStream) : Bool := !s.eofbit && !s.badbit

/-- Model of `std::istream::peek`: returns the next character without
consuming it; at end of data it returns EOF (`none`) and sets `eofbit`;
with an error flag set it fails immediately. -/
def IStream.peek (s : IStream) : Option Nat × IStream :=
  if s.good then
    match s.data with
    | [] => (none, { s with eofbit := true })
    | c :: _ => (some c, s)
  else (none, s)

/-- Model of `std::istream::get`: extracts one character; at end of data it
returns EOF (`none`) and sets `eofbit`; with an error flag set it fails. -/
def IStream.get (s : IStream) : Option Nat × IStream :=
  if s.good then
    match s.data with
    | [] => (none, { s with eofbit := true })
    | c :: rest => (some c, { s with data := rest })
  else (none, s)

/-- Model of `std::istream::ignore()`: extract and discard one character. -/
def IStream.ignore (s : IStream) : IStream := (s.get).2

/-- The byte passed for a `ReadError` peek field via `stream.peek()` converted
to `char`: EOF becomes `(char)EOF` = byte 255. -/
def errPeek (s : IStream) : Nat :=
  match (s.peek).1 with
  | some c => c
  | none => eofByte

/-- `csvd::HeaderType`. -/
inductive HeaderType where
  | None
  | FirstRow
  | Auto
deriving DecidableEq, Repr

/-- `csvd::ErrorCase`, the closed set of error kinds of the reader. -/
inductive ErrorCase where
  | BadStream
  | UnexpectedEof
  | ErrorParsingFloat
  | CellOutOfRange
  | UnexpectedLineSeparator
  | ExpectedLineSeparator
  | ExpectedValueSeparator
  | CellTooLong
deriving DecidableEq, Repr

/-- `csvd::Settings`: the separator, quote and header configuration.  The
fixed-capacity character arrays of the source are modelled by their logical
contents (the characters before the NUL terminator), which is the set the
accessors `value_separators()` / `line_separators()` / `quotes()` expose. -/
structure Settings where
  header_type : HeaderType
  value_separators : List Nat
  line_separators : List Nat
  quotes : List Nat
  auto_quotes : Bool
deriving DecidableEq, Repr

/-- The default `csvd::Settings` (`csvd.hpp`): separators `",;\t"`, line
separator `"\n"`, quotes `"\"'"`, auto quotes on, auto header detection. -/
def default_settings : Settings :=
  ⟨HeaderType.Auto, [44, 59, 9], [10], [34, 39], true⟩

/-- `csvd::Column`: a header name and the column data.  The `double` values of
the source are modelled as exact rationals. -/
structure Column where
  name : List Nat
  data : List ℚ
deriving DecidableEq, Repr

/-- `csvd::ReadError`: the error kind plus the positional context captured at
the failure point (the offending cell, the expected separator set, zero-based
column and row, and the look-ahead character, `0` meaning the `'\0'`
sentinel). -/
structure ReadError where
  error_case : ErrorCase
  cell : List Nat
  expected : List Nat
  col : Nat
  row : Nat
  peek : Nat
deriving DecidableEq, Repr

/-- Membership test `std::ranges::contains(set, stream.peek())`: the EOF
value matches no configured character. -/
def containsPeek (l : List Nat) (c : Option Nat) : Bool :=
  match c with
  | some c => l.contains c
  | none => false

/-- The whitespace set `" \a\b\t\n\v\f\r"` of `skip_whitespaces` and
`trim_whitespaces`. -/
def whitespace_chars : List Nat := [32, 7, 8, 9, 10, 11, 12, 13]

/-- The source `trim`: drop characters of `trim_chars` from both ends. -/
def trim (string trim_chars : List Nat) : List Nat :=
  ((string.dropWhile trim_chars.contains).reverse.dropWhile trim_chars.contains).reverse

def trim_whitespaces (string : List Nat) : List Nat :=
  trim string whitespace_chars

/-- Loop body of the source `skip`: consume characters of the set; the final
peek at end of data sets `eofbit`.  The first list argument is the unread data
of the stream argument. -/
def skipGo (cs : List Nat) : List Nat → IStream → IStream
  | [], s => { s with eofbit := true }
  | c :: rest, s =>
    if cs.contains c then skipGo cs rest { s with data := rest } else s

/-- The source `skip`: consume stream characters while they belong to the
given set (stopping on eof or bad). -/
def skip (s : IStream) (cs : List Nat) : IStream :=
  if s.eofbit || s.badbit then s else skipGo cs s.data s

def skip_whitespaces (s : IStream) : IStream :=
  skip s whitespace_chars

def isDigit (c : Nat) : Bool := decide (48 ≤ c ∧ c ≤ 57)

/-- `std::isdigit(stream.peek())`: false at EOF. -/
def isDigitPeek (c : Option Nat) : Bool :=
  match c with
  | some c => isDigit c
  | none => false

def digitsToNat (l : List Nat) : Nat :=
  l.foldl (fun a d => a * 10 + (d - 48)) 0

/-- Exponent tail after the `e`/`E`: optional sign then at least one digit;
`none` when malformed (the exponent is then ignored, as `from_chars` backs
up to the mantissa). -/
def parseExpTail : List Nat → Option Int
  | 45 :: rest =>
    if (rest.takeWhile isDigit).isEmpty then none
    else some (-(digitsToNat (rest.takeWhile isDigit) : Int))
  | 43 :: rest =>
    if (rest.takeWhile isDigit).isEmpty then none
    else some ((digitsToNat (rest.takeWhile isDigit) : Int))
  | rest =>
    if (rest.takeWhile isDigit).isEmpty then none
    else some ((digitsToNat (rest.takeWhile isDigit) : Int))

def parseExp : List Nat → Option Int
  | 101 :: rest => parseExpTail rest
  | 69 :: rest => parseExpTail rest
  | _ => none

/-- Modeled from the C++ standard library: `std::from_chars` for `double`
over the decimal grammar it accepts (optional leading `-` but no `+`, a
mantissa with at least one digit and an optional fraction, and an optional
exponent).  It succeeds on any such prefix; trailing unparsed characters are
ignored, exactly as the call sites in the source ignore `result.ptr`.  The
`inf`/`nan` spellings and the rounding to a `double` are not modelled: the
value `(int.frac) * 10 ^ exp` is kept as an exact rational. -/
def from_chars (s : List Nat) : Option ℚ :=
  let neg : Bool := decide (s.head? = some 45)
  let s1 := if neg then s.tail else s
  let intPart := s1.takeWhile isDigit
  let s2 := s1.dropWhile isDigit
  let fracPart := if s2.head? = some 46 then s2.tail.takeWhile isDigit else []
  let s3 := if s2.head? = some 46 then s2.tail.dropWhile isDigit else s2
  if intPart.isEmpty && fracPart.isEmpty then none
  else
    let mantNum : Nat := digitsToNat intPart * 10 ^ fracPart.length + digitsToNat fracPart
    let e : Int := (parseExp s3).getD 0
    let num : Nat := if 0 ≤ e then mantNum * 10 ^ e.toNat else mantNum
    let den : Nat := if 0 ≤ e then 10 ^ fracPart.length else 10 ^ fracPart.length * 10 ^ (-e).toNat
    some (mkRat (if neg then -(num : Int) else (num : Int)) den)

/-- Loop of `CSVd::read_cell`: the remaining buffer space plays the role of
`buffer_last - itr`, so the recursion is structural in the space left.  Per
iteration: exit at eof with the token so far; report overflow when the buffer
is full; toggle the quote flag on a quote character; break (without consuming)
on a line separator, or on a value separator when not inside quotes; otherwise
append `stream.get()` (at end of input the failed `get` appends
`(char)EOF`). -/
def read_cellGo (st : Settings) : Nat → Bool → List Nat → IStream →
    Option (List Nat) × IStream
  | 0, _, acc, s =>
    if s.eofbit then (some acc, s) else (none, s)
  | space + 1, is_in_quote, acc, s =>
    if s.eofbit then (some acc, s)
    else
      let pk := s.peek
      let has_quote := containsPeek st.quotes pk.1
      let q :=
        if is_in_quote then (if has_quote then false else is_in_quote)
        else (if has_quote then true else is_in_quote)
      let has_value_separator := containsPeek st.value_separators pk.1
      let has_line_separator := containsPeek st.line_separators pk.1
      let has_value_separator := if q then false else has_value_separator
      if has_value_separator || has_line_separator then (some acc, pk.2)
      else
        let g := (pk.2).get
        let c := match g.1 with | some c => c | none => eofByte
        read_cellGo st space q (acc ++ [c]) g.2

/-- `CSVd::read_cell` with its 128-byte stack buffer. -/
def read_cell (st : Settings) (s : IStream) : Option (List Nat) × IStream :=
  read_cellGo st 128 false [] s

/-- The append of one parsed value to the column at the given index
(`this->at(column).data.emplace_back(value)`). -/
def appendAt : List Column → Nat → ℚ → List Column
  | [], _, _ => []
  | c :: rest, 0, v => { c with data := c.data ++ [v] } :: rest
  | c :: rest, i + 1, v => c :: appendAt rest i v

/-- Loop of `CSVd::read_with_header`: scan a cell, trim whitespace and (with
`auto_quotes`) quote characters, append a new named column with empty data,
then consume the delimiter and stop once it was a line separator.  The fuel
counts loop iterations; `data.length + 2` is always enough. -/
def read_with_headerGo (st : Settings) : Nat → Nat → List Column → IStream →
    Option (Option ReadError × List Column × IStream)
  | 0, _, _, _ => none
  | fuel + 1, column_index, cols, s =>
    if s.eofbit then some (none, cols, s)
    else if s.badbit then
      some (some ⟨ErrorCase.BadStream, [], [], column_index, 0, 0⟩, cols, s)
    else
      let rc := read_cell st s
      match rc.1 with
      | none =>
        some (some ⟨ErrorCase.CellTooLong, [], [], column_index, 0, errPeek rc.2⟩, cols, rc.2)
      | some tok =>
        let cell := trim_whitespaces tok
        let cell := if st.auto_quotes then trim cell st.quotes else cell
        let cols := cols ++ [{ name := cell, data := [] }]
        let pk := (rc.2).peek
        let has_line_separator := containsPeek st.line_separators pk.1
        let s2 := (pk.2).ignore
        if has_line_separator then some (none, cols, s2)
        else read_with_headerGo st fuel (column_index + 1) cols s2

/-- Loop of `CSVd::read_without_header`: like the header loop but each cell is
parsed as a number and becomes the first data value of a new unnamed
column. -/
def read_without_headerGo (st : Settings) : Nat → Nat → List Column → IStream →
    Option (Option ReadError × List Column × IStream)
  | 0, _, _, _ => none
  | fuel + 1, column_index, cols, s =>
    if s.eofbit then some (none, cols, s)
    else if s.badbit then
      some (some ⟨ErrorCase.BadStream, [], [], column_index, 0, 0⟩, cols, s)
    else
      let rc := read_cell st s
      match rc.1 with
      | none =>
        some (some ⟨ErrorCase.CellTooLong, [], [], column_index, 0, errPeek rc.2⟩, cols, rc.2)
      | some tok =>
        let cell := trim_whitespaces tok
        let cell := if st.auto_quotes then trim cell st.quotes else cell
        match from_chars cell with
        | none =>
          some (some ⟨ErrorCase.ErrorParsingFloat, cell, [], column_index, 0, errPeek rc.2⟩, cols, rc.2)
        | some value =>
          let cols := cols ++ [{ name := [], data := [value] }]
          let pk := (rc.2).peek
          let has_line_separator := containsPeek st.line_separators pk.1
          let s2 := (pk.2).ignore
          if has_line_separator then some (none, cols, s2)
          else read_without_headerGo st fuel (column_index + 1) cols s2

/-- The state of the main data loop of `CSVd::read`: the columns built so
far, the current zero-based column and row, and the stream. -/
structure ReadState where
  cols : List Column
  column : Nat
  row : Nat
  s : IStream
deriving DecidableEq, Repr

/-- Main data loop of `CSVd::read` (one fuel unit per loop iteration;
`data.length + 2` is always enough).  Per iteration: exit on eof; fail on a
bad stream; skip whitespace; on eof with a fresh row succeed, otherwise fail
with `UnexpectedEof`; scan a cell (`CellTooLong` on overflow), trim and parse
it (`ErrorParsingFloat` on failure); append it to the current column, or fail
with `CellOutOfRange` when the column index is out of range; then on a line
separator or eof require the row to be complete (`UnexpectedLineSeparator`
otherwise, carrying the configured line-separator set) and start the next
row, and otherwise require more columns to be open (`ExpectedLineSeparator`)
and a value separator next (`ExpectedValueSeparator`), consuming the
delimiter. -/
def mainLoopGo (st : Settings) : Nat → ReadState → Option (Option ReadError × ReadState)
  | 0, _ => none
  | fuel + 1, r =>
    if r.s.eofbit then some (none, r)
    else if r.s.badbit then
      some (some ⟨ErrorCase.BadStream, [], [], r.column, r.row, 0⟩, r)
    else
      let s1 := skip_whitespaces r.s
      if s1.eofbit then
        if r.column = 0 then some (none, { r with s := s1 })
        else some (some ⟨ErrorCase.UnexpectedEof, [], [], r.column, r.row, 0⟩, { r with s := s1 })
      else
        let rc := read_cell st s1
        match rc.1 with
        | none =>
          some (some ⟨ErrorCase.CellTooLong, [], [], r.column, r.row, errPeek rc.2⟩,
                { r with s := rc.2 })
        | some tok =>
          let s2 := rc.2
          let cell := trim_whitespaces tok
          match from_chars cell with
          | none =>
            some (some ⟨ErrorCase.ErrorParsingFloat, cell, [], r.column, r.row, errPeek s2⟩,
                  { r with s := s2 })
          | some value =>
            if r.column < r.cols.length then
              let cols := appendAt r.cols r.column value
              let pk := s2.peek
              if containsPeek st.line_separators pk.1 || (pk.2).eofbit then
                if r.column + 1 ≠ cols.length then
                  let peek_char := match pk.1 with | some c => c | none => 0
                  some (some ⟨ErrorCase.UnexpectedLineSeparator, cell, st.line_separators,
                              r.column, r.row, peek_char⟩,
                        ⟨cols, r.column, r.row, pk.2⟩)
                else
                  mainLoopGo st fuel ⟨cols, 0, r.row + 1, (pk.2).ignore⟩
              else
                let peek_char := match pk.1 with | some c => c | none => eofByte
                if r.column + 1 = cols.length then
                  some (some ⟨ErrorCase.ExpectedLineSeparator, cell, st.line_separators,
                              r.column, r.row, peek_char⟩,
                        ⟨cols, r.column, r.row, pk.2⟩)
                else if !(containsPeek st.value_separators pk.1) then
                  some (some ⟨ErrorCase.ExpectedValueSeparator, cell, st.value_separators,
                              r.column, r.row, peek_char⟩,
                        ⟨cols, r.column, r.row, pk.2⟩)
                else
                  mainLoopGo st fuel ⟨cols, r.column + 1, r.row, (pk.2).ignore⟩
            else
              some (some ⟨ErrorCase.CellOutOfRange, cell, [], r.column, r.row, errPeek s2⟩,
                    ⟨r.cols, r.column, r.row, s2⟩)

/-- The outcome of `CSVd::read`: the error (if any), the final contents of
the table, the resolved header type and the final row counter. -/
structure ReadOutcome where
  error : Option ReadError
  cols : List Column
  header : HeaderType
  row : Nat
deriving DecidableEq, Repr

/-- Auto header-type resolution of `CSVd::read`: with `Auto` configured,
skip whitespace and peek one character; a digit, `+` or `-` resolves to
`None` (data row first), anything else (EOF included) to `FirstRow`. -/
def resolve_header (st : Settings) (s0 : IStream) : HeaderType × IStream :=
  if st.header_type = HeaderType.Auto then
    let s1 := skip_whitespaces s0
    let pk := s1.peek
    if isDigitPeek pk.1 ∨ pk.1 = some 43 ∨ pk.1 = some 45 then (HeaderType.None, pk.2)
    else (HeaderType.FirstRow, pk.2)
  else (st.header_type, s0)

/-- `CSVd::read`: the entry guards (which return before the table is
cleared), auto header-type resolution from the first non-whitespace
character, the header-establishing phase, and the main data loop starting at
row 1.  `prior` is the table contents before the call; `none` means the loop
fuel ran out, which `read_ne_none` below proves impossible. -/
def read (st : Settings) (prior : List Column) (s0 : IStream) : Option ReadOutcome :=
  if s0.eofbit then
    some ⟨some ⟨ErrorCase.UnexpectedEof, [], [], 0, 0, 0⟩, prior, st.header_type, 0⟩
  else if s0.badbit then
    some ⟨some ⟨ErrorCase.BadStream, [], [], 0, 0, 0⟩, prior, st.header_type, 0⟩
  else
    let fuel := s0.data.length + 2
    let hs := resolve_header st s0
    let phase :=
      if hs.1 = HeaderType.FirstRow then read_with_headerGo st fuel 0 [] hs.2
      else read_without_headerGo st fuel 0 [] hs.2
    match phase with
    | none => none
    | some (some e, cols, _) => some ⟨some e, cols, hs.1, 0⟩
    | some (none, cols, s2) =>
      match mainLoopGo st fuel ⟨cols, 0, 1, s2⟩ with
      | none => none
      | some (err, rst) => some ⟨err, rst.cols, hs.1, rst.row⟩

/-- Decimal digits of a natural number (most significant first). -/
def natDigitsGo : Nat → Nat → List Nat
  | 0, _ => []
  | fuel + 1, n =>
    if n < 10 then [48 + n] else natDigitsGo fuel (n / 10) ++ [48 + n % 10]

def natDigits (n : Nat) : List Nat := natDigitsGo (n + 1) n

/-- Rendering of one data value by `stream << value`.  The source formats an
IEEE-754 `double` with the default six-significant-digit ostream precision;
here the exact rational is rendered as sign, numerator digits and (for a
non-integer) a `/` and the denominator digits.  The theorems below depend
only on the facts that the rendering is a pure function of the value and
contains no separator byte, not on the digits produced. -/
def renderValue (q : ℚ) : List Nat :=
  (if q.num < 0 then [45] else []) ++ natDigits q.num.natAbs ++
    (if q.den = 1 then [] else 47 :: natDigits q.den)

/-- The first configured quote / value-separator / line-separator character,
which the writer uses (`settings_.quotes[0]` etc., documented non-empty). -/
def quote0 (st : Settings) : Nat := st.quotes.headD 0

def vsep0 (st : Settings) : Nat := st.value_separators.headD 0

def lsep0 (st : Settings) : Nat := st.line_separators.headD 0

/-- One row of writer output: the cells joined by the first value separator,
terminated by the first line separator (the source's iterator loop). -/
def emitRowAux (vs ls : Nat) : List (List Nat) → List Nat
  | [] => []
  | [x] => x ++ [ls]
  | x :: y :: rest => x ++ vs :: emitRowAux vs ls (y :: rest)

/-- Header-type resolution of `CSVd::write`: `Auto` becomes `FirstRow` when
some column has a non-empty name, else `None`. -/
def resolved_write_header (st : Settings) (cols : List Column) : HeaderType :=
  if st.header_type = HeaderType.Auto then
    if cols.any (fun c => !c.name.isEmpty) then HeaderType.FirstRow else HeaderType.None
  else st.header_type

/-- One header cell of `CSVd::write`: the name wrapped in the first quote
character when `auto_quotes` is on; an empty name is replaced by the column
index, always quoted. -/
def header_cell (st : Settings) (index : Nat) (c : Column) : List Nat :=
  (if st.auto_quotes then [quote0 st] else []) ++
    (if !c.name.isEmpty then c.name
     else (if st.auto_quotes then [] else [quote0 st]) ++ natDigits index ++
       (if st.auto_quotes then [] else [quote0 st])) ++
    (if st.auto_quotes then [quote0 st] else [])

/-- The header row written by `CSVd::write` (empty when the resolved header
type is `None`). -/
def write_header (st : Settings) (cols : List Column) : List Nat :=
  if resolved_write_header st cols = HeaderType.FirstRow then
    emitRowAux (vsep0 st) (lsep0 st) (cols.enum.map (fun p => header_cell st p.1 p.2))
  else []

/-- The minimum data length over the columns, folded exactly as the source
does starting from `SIZE_MAX`. -/
def min_data_length (cols : List Column) : Nat :=
  cols.foldl (fun m c => min c.data.length m) (2 ^ 64 - 1)

/-- The data rows written by `CSVd::write`: row indices `0` to
`min_data_length - 1`, each row the rendered values joined by the first value
separator and terminated by the first line separator. -/
def write_data (st : Settings) (cols : List Column) : List Nat :=
  (List.range (min_data_length cols)).flatMap
    (fun r => emitRowAux (vsep0 st) (lsep0 st)
      (cols.map (fun c => renderValue ((c.data.get? r).getD 0))))

/-- `CSVd::write`: nothing for an empty table, else the header (if resolved)
followed by the truncated data rows.  The function is total: the writer has
no failure modes. -/
def write (st : Settings) (cols : List Column) : List Nat :=
  if cols.isEmpty then [] else write_header st cols ++ write_data st cols

/-- Bytes of a list of characters, for readable concrete inputs. -/
def ofChars (l : List Char) : List Nat := l.map Char.toNat


/-- Termination measure for the reader loops: the unread data length plus
one while the eof flag is still clear.  Every loop iteration strictly
decreases it, which is what makes the loop fuel `data.length + 2`
sufficient (`read_ne_none`). -/
def mu (s : IStream) : Nat := s.data.length + (if s.eofbit then 0 else 1)

/-! ### Stream lemmas -/

theorem IStream.peek_some {s : IStream} {c : Nat} (he : s.eofbit = false)
    (hb : s.badbit = false) (hd : s.data.head? = some c) : s.peek = (some c, s) := by
  rcases h : s.data with _ | ⟨a, l⟩
  · rw [h] at hd
    simp at hd
  · rw [h] at hd
    have ha : a = c := by simpa using hd
    subst ha
    simp [IStream.peek, IStream.good, he, hb, h]

theorem IStream.peek_nil {s : IStream} (he : s.eofbit = false) (hb : s.badbit = false)
    (hd : s.data = []) : s.peek = (none, { s with eofbit := true }) := by
  simp [IStream.peek, IStream.good, he, hb, hd]

theorem IStream.peek_bad {s : IStream} (h : s.good = false) : s.peek = (none, s) := by
  simp [IStream.peek, h]

theorem IStream.get_cons {s : IStream} {c : Nat} {l : List Nat} (he : s.eofbit = false)
    (hb : s.badbit = false) (hd : s.data = c :: l) :
    s.get = (some c, { s with data := l }) := by
  simp [IStream.get, IStream.good, he, hb, hd]

theorem IStream.ignore_cons {s : IStream} {c : Nat} {l : List Nat} (he : s.eofbit = false)
    (hb : s.badbit = false) (hd : s.data = c :: l) :
    s.ignore = { s with data := l } := by
  simp [IStream.ignore, IStream.get_cons he hb hd]

theorem IStream.ignore_eof {s : IStream} (he : s.eofbit = true) : s.ignore = s := by
  simp [IStream.ignore, IStream.get, IStream.good, he]

theorem IStream.peek_fst_some {s : IStream} {c : Nat} (h : (s.peek).1 = some c) :
    s.eofbit = false ∧ s.badbit = false ∧ s.data.head? = some c := by
  rcases s with ⟨data, eb, bb⟩
  cases eb <;> cases bb <;> rcases data with _ | ⟨a, l⟩ <;>
    simp_all [IStream.peek, IStream.good]

/-! ### appendAt lemmas -/

theorem appendAt_length : ∀ (cols : List Column) (i : Nat) (v : ℚ),
    (appendAt cols i v).length = cols.length
  | [], _, _ => rfl
  | _ :: _, 0, _ => rfl
  | c :: rest, i + 1, v => by
    simp only [appendAt, List.length_cons, appendAt_length rest i v]

theorem appendAt_get?_self : ∀ (cols : List Column) (i : Nat) (v : ℚ) (c : Column),
    cols.get? i = some c →
    (appendAt cols i v).get? i = some ⟨c.name, c.data ++ [v]⟩
  | [], i, _, _ => by
    intro h
    simp at h
  | c0 :: rest, 0, v, c => by
    intro h
    have hc : c0 = c := by simpa using h
    subst hc
    rfl
  | c0 :: rest, i + 1, v, c => by
    intro h
    simpa [appendAt] using appendAt_get?_self rest i v c (by simpa using h)

theorem appendAt_get?_ne : ∀ (cols : List Column) (i j : Nat) (v : ℚ), j ≠ i →
    (appendAt cols i v).get? j = cols.get? j
  | [], _, _, _, _ => by simp [appendAt]
  | c0 :: rest, 0, j, v, h => by
    cases j with
    | zero => exact absurd rfl h
    | succ j => simp [appendAt]
  | c0 :: rest, i + 1, j, v, h => by
    cases j with
    | zero => simp [appendAt]
    | succ j =>
      simpa [appendAt] using appendAt_get?_ne rest i j v (by omega)

/-! ### Claim theorems -/

/-- C4: in `read_cell`, a line-separator character always ends the token
(without being consumed) regardless of the quote-toggle state, whereas a
value-separator character seen while the quote-toggle flag is set does not
end the token: it is consumed and appended, and the scan continues. -/
theorem claim_C4 :
    (∀ (st : Settings) (space : Nat) (q : Bool) (acc : List Nat) (s : IStream) (c : Nat),
      s.eofbit = false → s.badbit = false → s.data.head? = some c →
      c ∈ st.line_separators →
      read_cellGo st (space + 1) q acc s = (some acc, s)) ∧
    (∀ (st : Settings) (space : Nat) (acc : List Nat) (s : IStream) (c : Nat) (l : List Nat),
      s.eofbit = false → s.badbit = false → s.data = c :: l →
      c ∉ st.quotes →
      c ∈ st.value_separators →
      c ∉ st.line_separators →
      read_cellGo st (space + 1) true acc s =
        read_cellGo st space true (acc ++ [c]) { s with data := l }) := by
  constructor
  · intro st space q acc s c he hb hd hls
    have hp := IStream.peek_some he hb hd
    simp [read_cellGo, he, hp, containsPeek, hls]
  · intro st space acc s c l he hb hd hq hvs hls
    have hp := IStream.peek_some he hb (by rw [hd]; rfl)
    have hg := IStream.get_cons he hb hd
    simp [read_cellGo, he, hp, hg, containsPeek, hq, hvs, hls]

/-- C4 witness: with the default settings, a cell scan in quote state over a
stream starting with the line separator stops at once, and a scan in quote
state over a stream starting with a comma consumes the comma into the
token. -/
theorem claim_C4_witness :
    read_cellGo default_settings 6 true [97] (mkStream [10, 98]) =
      (some [97], mkStream [10, 98]) ∧
    read_cellGo default_settings 6 true [97] (mkStream [44, 98]) =
      read_cellGo default_settings 5 true [97, 44] (mkStream [98]) := by
  constructor
  · exact claim_C4.1 default_settings 5 true [97] (mkStream [10, 98]) 10
      rfl rfl rfl (by decide)
  · exact claim_C4.2 default_settings 5 [97] (mkStream [44, 98]) 44 [98]
      rfl rfl rfl (by decide) (by decide) (by decide)

/-- C5 counterexample: scanning the input `"a,b"` (with `,` the value
separator and `"` the quote) does not yield the token `a,b`: the scanner
copies the quote characters into the token. -/
theorem claim_C5_counterexample :
    (read_cell ⟨HeaderType.Auto, [44], [10], [34], true⟩
        (mkStream (ofChars ['"', 'a', ',', 'b', '"']))).1 ≠
      some (ofChars ['a', ',', 'b']) := by
  decide

/-- C5 (amended): scanning `"a,b"` with `,` the value separator and `"` the
quote yields a single token spanning the whole input — the quoted `,` causes
no break — but the token keeps the quote characters, and the scan, ending at
end of input, appends the byte 255 written by the failed `get`: the token is
`"a,b"` followed by byte 255. -/
theorem claim_C5 :
    read_cell ⟨HeaderType.Auto, [44], [10], [34], true⟩
        (mkStream (ofChars ['"', 'a', ',', 'b', '"'])) =
      (some [34, 97, 44, 98, 34, 255], ⟨[], true, false⟩) := by
  decide

set_option maxRecDepth 8000 in
/-- C6: a cell of exactly 128 characters already overflows the scanner (the
buffer-full check precedes the separator check), so the largest cell
`read_cell` accepts has 127 characters, while the error message of
`CellTooLong` states that cells of up to 128 characters are supported; a
whole `read` over a 128-character first cell fails with `CellTooLong`. -/
theorem claim_C6 :
    (read_cell default_settings (mkStream (List.replicate 128 49 ++ [10]))).1 = none ∧
    (read_cell default_settings (mkStream (List.replicate 127 49 ++ [10]))).1 =
      some (List.replicate 127 49) ∧
    read default_settings [] (mkStream (List.replicate 128 49 ++ [10, 50, 10])) =
      some ⟨some ⟨ErrorCase.CellTooLong, [], [], 0, 0, 10⟩, [], HeaderType.None, 0⟩ := by
  refine ⟨by decide, by decide, by decide⟩

/-- C8 counterexample: a `read` on a stream that is already at EOF fails the
entry guard with `UnexpectedEof` and returns before `clear()`, so the column
present before the call is still in the table afterwards. -/
theorem claim_C8_counterexample :
    read default_settings [⟨[97], []⟩] (⟨[], true, false⟩ : IStream) =
      some ⟨some ⟨ErrorCase.UnexpectedEof, [], [], 0, 0, 0⟩, [⟨[97], []⟩],
            HeaderType.Auto, 0⟩ := by
  decide

/-- C8 (amended): whenever the entry guards pass (the stream is neither at
EOF nor bad), `read` discards the prior table contents: its outcome is the
same as reading into an empty table.  (The entry-guard failures
`UnexpectedEof` and `BadStream` return before the table is cleared and leave
the prior contents intact, see the counterexample.) -/
theorem claim_C8 :
    ∀ (st : Settings) (prior : List Column) (s : IStream),
      s.eofbit = false → s.badbit = false → read st prior s = read st [] s := by
  intro st prior s he hb
  simp [read, he, hb]

/-- C8 witness: reading the one-line input `1\n` over a table holding one
column gives the same outcome as reading it over an empty table. -/
theorem claim_C8_witness :
    read default_settings [⟨[97], []⟩] (mkStream [49, 10]) =
      read default_settings [] (mkStream [49, 10]) :=
  claim_C8 default_settings [⟨[97], []⟩] (mkStream [49, 10]) rfl rfl

/-- C10: the whitespace set skipped before every data cell contains the
default line separator `\n`; consequently, with default settings, a `\n`
standing after a consumed value separator is swallowed as whitespace at the
start of the next cell scan instead of ending the row: the input
`a, b\n1,\n2\n` parses successfully into one data row spanning two physical
lines. -/
theorem claim_C10 :
    whitespace_chars.contains 10 = true ∧
    default_settings.line_separators = [10] ∧
    read default_settings []
        (mkStream (ofChars ['a', ',', ' ', 'b', '\n', '1', ',', '\n', '2', '\n'])) =
      some ⟨none, [⟨[97], [1]⟩, ⟨[98], [2]⟩], HeaderType.FirstRow, 2⟩ := by
  refine ⟨by decide, rfl, by decide⟩

/-- C2: whenever, in the main data loop, the character after a successfully
parsed cell is a line separator while the row is not at its last column, the
loop fails with `UnexpectedLineSeparator` carrying the full configured
line-separator set as the expected set; concretely, `1, 2, 3\n4, 5\n` (second
row short) fails with `UnexpectedLineSeparator` at row 1, column 1. -/
theorem claim_C2 :
    (∀ (st : Settings) (fuel : Nat) (r : ReadState) (tok : List Nat) (s2 : IStream)
      (v : ℚ) (c : Nat),
      r.s.eofbit = false → r.s.badbit = false →
      (skip_whitespaces r.s).eofbit = false →
      read_cell st (skip_whitespaces r.s) = (some tok, s2) →
      from_chars (trim_whitespaces tok) = some v →
      r.column < r.cols.length →
      s2.eofbit = false → s2.badbit = false → s2.data.head? = some c →
      c ∈ st.line_separators →
      r.column + 1 ≠ r.cols.length →
      mainLoopGo st (fuel + 1) r =
        some (some ⟨ErrorCase.UnexpectedLineSeparator, trim_whitespaces tok,
            st.line_separators, r.column, r.row, c⟩,
          ⟨appendAt r.cols r.column v, r.column, r.row, s2⟩)) ∧
    read default_settings []
        (mkStream (ofChars ['1', ',', ' ', '2', ',', ' ', '3', '\n', '4', ',', ' ', '5', '\n'])) =
      some ⟨some ⟨ErrorCase.UnexpectedLineSeparator, [53], [10], 1, 1, 10⟩,
            [⟨[], [1, 4]⟩, ⟨[], [2, 5]⟩, ⟨[], [3]⟩], HeaderType.None, 1⟩ := by
  constructor
  · intro st fuel r tok s2 v c he hb hse hrc hfc hlt h7 h8 h9 h10 h11
    have hp : s2.peek = (some c, s2) := IStream.peek_some h7 h8 h9
    have hlen := appendAt_length r.cols r.column v
    simp [mainLoopGo, he, hb, hse, hrc, hfc, hlt, hp, containsPeek, h10, h7, hlen, h11]
  · decide

/-- C2 witness: the loop-level statement applied to a concrete state with
two declared columns and the remaining input `5\n` at column 0. -/
theorem claim_C2_witness :
    mainLoopGo default_settings 6
        ⟨[⟨[], []⟩, ⟨[], []⟩], 0, 1, mkStream [53, 10]⟩ =
      some (some ⟨ErrorCase.UnexpectedLineSeparator, [53], [10], 0, 1, 10⟩,
        ⟨[⟨[], [5]⟩, ⟨[], []⟩], 0, 1, mkStream [10]⟩) := by
  have h := claim_C2.1 default_settings 5
    ⟨[⟨[], []⟩, ⟨[], []⟩], 0, 1, mkStream [53, 10]⟩ [53] (mkStream [10]) (mkRat 5 1) 10
    rfl rfl (by decide) (by decide) (by decide) (by decide) rfl rfl rfl (by decide) (by decide)
  simpa using h


/-- Invariant of the main data loop: if at entry every column at index `i` has
data length `row - 1 + off` plus one when `i` is left of the current column
(`off` being 0 after a header phase and 1 after a no-header phase), the column
index is in range, and an eof or an empty table can only occur at column 0,
then a successful exit leaves every column with data length `row - 1 + off`
for the final row counter, and no exit ever produces `CellOutOfRange`. -/
theorem mainLoopGo_ok (st : Settings) (off : Nat) :
    ∀ (fuel : Nat) (r : ReadState) (res : Option ReadError × ReadState),
      mainLoopGo st fuel r = some res →
      (∀ i c, r.cols.get? i = some c →
        c.data.length + 1 = r.row + off + (if i < r.column then 1 else 0)) →
      (r.s.eofbit = true → r.column = 0) →
      (r.column = 0 ∨ r.column < r.cols.length) →
      (r.cols.length = 0 → r.s.eofbit = true) →
      ((res.1 = none → ∀ c ∈ res.2.cols, c.data.length + 1 = res.2.row + off) ∧
       (∀ e, res.1 = some e → e.error_case ≠ ErrorCase.CellOutOfRange)) := by
  intro fuel
  induction fuel with
  | zero => intro r res heq _ _ _ _; simp [mainLoopGo] at heq
  | succ n ih =>
    intro r res heq hlen heof hcol hzero
    by_cases h1 : r.s.eofbit = true
    · simp only [mainLoopGo, if_pos h1] at heq
      injection heq with heq
      subst heq
      refine ⟨fun _ c hc => ?_, fun e he => by simp at he⟩
      obtain ⟨i, hi⟩ := List.mem_iff_get?.1 hc
      have h := hlen i c hi
      have hc0 := heof h1
      rw [hc0] at h
      simpa using h
    · replace h1 : r.s.eofbit = false := by simpa using h1
      by_cases h2 : r.s.badbit = true
      · simp only [mainLoopGo, h1, Bool.false_eq_true, if_false, if_pos h2] at heq
        injection heq with heq
        subst heq
        exact ⟨fun hn => by simp at hn, fun e he => by injection he with he; subst he; simp⟩
      · replace h2 : r.s.badbit = false := by simpa using h2
        by_cases h3 : (skip_whitespaces r.s).eofbit = true
        · by_cases h4 : r.column = 0
          · simp only [mainLoopGo, h1, h2, Bool.false_eq_true, if_false, if_pos h3,
              if_pos h4] at heq
            injection heq with heq
            subst heq
            refine ⟨fun _ c hc => ?_, fun e he => by simp at he⟩
            obtain ⟨i, hi⟩ := List.mem_iff_get?.1 hc
            have h := hlen i c hi
            rw [h4] at h
            simpa using h
          · simp only [mainLoopGo, h1, h2, Bool.false_eq_true, if_false, if_pos h3,
              if_neg h4] at heq
            injection heq with heq
            subst heq
            exact ⟨fun hn => by simp at hn, fun e he => by injection he with he; subst he; simp⟩
        · replace h3 : (skip_whitespaces r.s).eofbit = false := by simpa using h3
          rcases hrc : read_cell st (skip_whitespaces r.s) with ⟨otok, s2⟩
          rcases otok with _ | tok
          · simp only [mainLoopGo, h1, h2, h3, Bool.false_eq_true, if_false, hrc] at heq
            injection heq with heq
            subst heq
            exact ⟨fun hn => by simp at hn, fun e he => by injection he with he; subst he; simp⟩
          · rcases hfc : from_chars (trim_whitespaces tok) with _ | v
            · simp only [mainLoopGo, h1, h2, h3, Bool.false_eq_true, if_false, hrc, hfc] at heq
              injection heq with heq
              subst heq
              exact ⟨fun hn => by simp at hn, fun e he => by injection he with he; subst he; simp⟩
            · by_cases h5 : r.column < r.cols.length
              · have hlenA := appendAt_length r.cols r.column v
                rcases hpk : s2.peek with ⟨oc, s3⟩
                by_cases h6 : (containsPeek st.line_separators oc || s3.eofbit) = true
                · by_cases h7 : r.column + 1 ≠ (appendAt r.cols r.column v).length
                  · -- UnexpectedLineSeparator
                    simp only [mainLoopGo, h1, h2, h3, Bool.false_eq_true, if_false, hrc, hfc,
                      if_pos h5, hpk, h6, if_true, if_pos h7] at heq
                    injection heq with heq
                    subst heq
                    exact ⟨fun hn => by simp at hn,
                      fun e he => by injection he with he; subst he; simp⟩
                  · -- row complete: recurse
                    have hcoleq : r.column + 1 = r.cols.length := by
                      have := not_not.1 h7
                      omega
                    simp only [mainLoopGo, h1, h2, h3, Bool.false_eq_true, if_false, hrc, hfc,
                      if_pos h5, hpk, h6, if_true, if_neg h7] at heq
                    refine ih _ _ heq ?_ (fun _ => rfl) (Or.inl rfl) ?_
                    · intro i c hget
                      dsimp only at hget ⊢
                      rcases Nat.lt_trichotomy i r.column with hic | hic | hic
                      · rw [appendAt_get?_ne _ _ _ _ (Nat.ne_of_lt hic)] at hget
                        have h := hlen i c hget
                        rw [if_pos hic] at h
                        simp only [Nat.not_lt_zero, if_false]
                        omega
                      · subst hic
                        obtain ⟨c0, hc0⟩ : ∃ c0, r.cols.get? r.column = some c0 := by
                          rcases hg : r.cols.get? r.column with _ | c0
                          · rw [List.get?_eq_none] at hg; omega
                          · exact ⟨c0, rfl⟩
                        rw [appendAt_get?_self _ _ _ _ hc0] at hget
                        injection hget with hget
                        have h := hlen r.column c0 hc0
                        rw [if_neg (lt_irrefl _)] at h
                        rw [← hget]
                        simp only [List.length_append, List.length_singleton,
                          Nat.not_lt_zero, if_false]
                        omega
                      · have hnone : (appendAt r.cols r.column v).get? i = none := by
                          rw [List.get?_eq_none, hlenA]; omega
                        rw [hnone] at hget
                        cases hget
                    · intro hl
                      dsimp only at hl ⊢
                      rw [appendAt_length] at hl
                      exact absurd hl (by omega)
                · -- not line end
                  by_cases h8 : r.column + 1 = (appendAt r.cols r.column v).length
                  · -- ExpectedLineSeparator
                    simp only [mainLoopGo, h1, h2, h3, Bool.false_eq_true, if_false, hrc, hfc,
                      if_pos h5, hpk, h6, if_pos h8] at heq
                    injection heq with heq
                    subst heq
                    exact ⟨fun hn => by simp at hn,
                      fun e he => by injection he with he; subst he; simp⟩
                  · by_cases h9 : (!(containsPeek st.value_separators oc)) = true
                    · -- ExpectedValueSeparator
                      simp only [mainLoopGo, h1, h2, h3, Bool.false_eq_true, if_false, hrc, hfc,
                        if_pos h5, hpk, h6, if_neg h8, h9, if_true] at heq
                      injection heq with heq
                      subst heq
                      exact ⟨fun hn => by simp at hn,
                        fun e he => by injection he with he; subst he; simp⟩
                    · -- value separator: recurse
                      have h9' : containsPeek st.value_separators oc = true := by
                        simpa using h9
                      rcases oc with _ | c
                      · simp [containsPeek] at h9'
                      · have hps := IStream.peek_fst_some (c := c) (s := s2) (by rw [hpk])
                        obtain ⟨hse2, hsb2, hsd2⟩ := hps
                        have hs3 : s3 = s2 := by
                          have h' := (IStream.peek_some hse2 hsb2 hsd2).symm.trans hpk
                          exact (congrArg Prod.snd h').symm
                        have hdata : s2.data = c :: s2.data.tail := by
                          rcases hd2 : s2.data with _ | ⟨a, l⟩
                          · rw [hd2] at hsd2; simp at hsd2
                          · rw [hd2] at hsd2
                            have : a = c := by simpa using hsd2
                            subst this
                            rfl
                        have hig : s3.ignore = { s2 with data := s2.data.tail } := by
                          rw [hs3]
                          exact IStream.ignore_cons hse2 hsb2 hdata
                        simp only [mainLoopGo, h1, h2, h3, Bool.false_eq_true, if_false, hrc, hfc,
                          if_pos h5, hpk, h6, if_neg h8, h9, if_false] at heq
                        rw [hig] at heq
                        refine ih _ _ heq ?_ ?_ ?_ ?_
                        · intro i cc hget
                          dsimp only at hget ⊢
                          rcases Nat.lt_trichotomy i r.column with hic | hic | hic
                          · rw [appendAt_get?_ne _ _ _ _ (Nat.ne_of_lt hic)] at hget
                            have h := hlen i cc hget
                            rw [if_pos hic] at h
                            rw [if_pos (by omega : i < r.column + 1)]
                            omega
                          · subst hic
                            obtain ⟨c0, hc0⟩ : ∃ c0, r.cols.get? r.column = some c0 := by
                              rcases hg : r.cols.get? r.column with _ | c0
                              · rw [List.get?_eq_none] at hg; omega
                              · exact ⟨c0, rfl⟩
                            rw [appendAt_get?_self _ _ _ _ hc0] at hget
                            injection hget with hget
                            have h := hlen r.column c0 hc0
                            rw [if_neg (lt_irrefl _)] at h
                            rw [← hget]
                            rw [if_pos (by omega : r.column < r.column + 1)]
                            simp only [List.length_append, List.length_singleton]
                            omega
                          · rw [appendAt_get?_ne _ _ _ _ (by omega : i ≠ r.column)] at hget
                            have h := hlen i cc hget
                            rw [if_neg (by omega : ¬ i < r.column)] at h
                            rw [if_neg (by omega : ¬ i < r.column + 1)]
                            omega
                        · intro habs
                          dsimp only at habs
                          rw [hse2] at habs
                          cases habs
                        · refine Or.inr ?_
                          dsimp only
                          rw [appendAt_length]
                          rw [appendAt_length] at h8
                          omega
                        · intro hl
                          dsimp only at hl ⊢
                          rw [appendAt_length] at hl
                          exact absurd hl (by omega)
              · exfalso
                rcases hcol with h6 | h6
                · have hl0 : r.cols.length = 0 := by omega
                  have := hzero hl0
                  rw [h1] at this
                  exact Bool.false_ne_true this
                · exact h5 h6

/-- The header phase creates only columns with empty data, never removes
columns, never fails with `CellOutOfRange`, and returns successfully with no
new column only when the stream was already at EOF. -/
theorem read_with_headerGo_ok (st : Settings) :
    ∀ (fuel col0 : Nat) (acc : List Column) (s : IStream)
      (res : Option ReadError × List Column × IStream),
      read_with_headerGo st fuel col0 acc s = some res →
      (∀ c ∈ acc, c.data = []) →
      ((∀ c ∈ res.2.1, c.data = []) ∧
       acc.length ≤ res.2.1.length ∧
       (res.1 = none → res.2.1.length = acc.length → res.2.2.eofbit = true) ∧
       (∀ e, res.1 = some e → e.error_case ≠ ErrorCase.CellOutOfRange)) := by
  intro fuel
  induction fuel with
  | zero => intro col0 acc s res heq _; simp [read_with_headerGo] at heq
  | succ n ih =>
    intro col0 acc s res heq hacc
    by_cases h1 : s.eofbit = true
    · simp only [read_with_headerGo, if_pos h1] at heq
      injection heq with heq
      subst heq
      exact ⟨hacc, le_refl _, fun _ _ => h1, fun e he => by simp at he⟩
    · replace h1 : s.eofbit = false := by simpa using h1
      by_cases h2 : s.badbit = true
      · simp only [read_with_headerGo, h1, Bool.false_eq_true, if_false, if_pos h2] at heq
        injection heq with heq
        subst heq
        exact ⟨hacc, le_refl _, fun hn => by simp at hn,
          fun e he => by injection he with he; subst he; simp⟩
      · replace h2 : s.badbit = false := by simpa using h2
        rcases hrc : read_cell st s with ⟨otok, s2⟩
        rcases otok with _ | tok
        · simp only [read_with_headerGo, h1, h2, Bool.false_eq_true, if_false, hrc] at heq
          injection heq with heq
          subst heq
          exact ⟨hacc, le_refl _, fun hn => by simp at hn,
            fun e he => by injection he with he; subst he; simp⟩
        · have hacc2 : ∀ c ∈ acc ++
              [({ name := if st.auto_quotes = true then
                    trim (trim_whitespaces tok) st.quotes
                  else trim_whitespaces tok, data := [] } : Column)], c.data = [] := by
            intro c hc
            rcases List.mem_append.1 hc with hc | hc
            · exact hacc c hc
            · rcases List.mem_singleton.1 hc with rfl
              rfl
          by_cases h3 : containsPeek st.line_separators ((s2.peek).1) = true
          · simp only [read_with_headerGo, h1, h2, Bool.false_eq_true, if_false, hrc,
              h3, if_true] at heq
            injection heq with heq
            subst heq
            refine ⟨hacc2, by simp, fun _ hlen => ?_, fun e he => by simp at he⟩
            exfalso
            simp at hlen
          · simp only [read_with_headerGo, h1, h2, Bool.false_eq_true, if_false, hrc,
              h3, if_false] at heq
            have hres := ih _ _ _ _ heq hacc2
            refine ⟨hres.1, ?_, fun hn hlen => ?_, hres.2.2.2⟩
            · calc acc.length ≤ (acc ++ [_]).length := by simp
                _ ≤ res.2.1.length := hres.2.1
            · exfalso
              have := hres.2.1
              simp at this
              omega

/-- The no-header first-row phase creates only columns with exactly one data
value, never removes columns, never fails with `CellOutOfRange`, and returns
successfully with no new column only when the stream was already at EOF. -/
theorem read_without_headerGo_ok (st : Settings) :
    ∀ (fuel col0 : Nat) (acc : List Column) (s : IStream)
      (res : Option ReadError × List Column × IStream),
      read_without_headerGo st fuel col0 acc s = some res →
      (∀ c ∈ acc, c.data.length = 1) →
      ((∀ c ∈ res.2.1, c.data.length = 1) ∧
       acc.length ≤ res.2.1.length ∧
       (res.1 = none → res.2.1.length = acc.length → res.2.2.eofbit = true) ∧
       (∀ e, res.1 = some e → e.error_case ≠ ErrorCase.CellOutOfRange)) := by
  intro fuel
  induction fuel with
  | zero => intro col0 acc s res heq _; simp [read_without_headerGo] at heq
  | succ n ih =>
    intro col0 acc s res heq hacc
    by_cases h1 : s.eofbit = true
    · simp only [read_without_headerGo, if_pos h1] at heq
      injection heq with heq
      subst heq
      exact ⟨hacc, le_refl _, fun _ _ => h1, fun e he => by simp at he⟩
    · replace h1 : s.eofbit = false := by simpa using h1
      by_cases h2 : s.badbit = true
      · simp only [read_without_headerGo, h1, Bool.false_eq_true, if_false, if_pos h2] at heq
        injection heq with heq
        subst heq
        exact ⟨hacc, le_refl _, fun hn => by simp at hn,
          fun e he => by injection he with he; subst he; simp⟩
      · replace h2 : s.badbit = false := by simpa using h2
        rcases hrc : read_cell st s with ⟨otok, s2⟩
        rcases otok with _ | tok
        · simp only [read_without_headerGo, h1, h2, Bool.false_eq_true, if_false, hrc] at heq
          injection heq with heq
          subst heq
          exact ⟨hacc, le_refl _, fun hn => by simp at hn,
            fun e he => by injection he with he; subst he; simp⟩
        · rcases hfc : from_chars (if st.auto_quotes = true then
              trim (trim_whitespaces tok) st.quotes else trim_whitespaces tok) with _ | v
          · simp only [read_without_headerGo, h1, h2, Bool.false_eq_true, if_false, hrc,
              hfc] at heq
            injection heq with heq
            subst heq
            exact ⟨hacc, le_refl _, fun hn => by simp at hn,
              fun e he => by injection he with he; subst he; simp⟩
          · have hacc2 : ∀ c ∈ acc ++ [({ name := [], data := [v] } : Column)],
                c.data.length = 1 := by
              intro c hc
              rcases List.mem_append.1 hc with hc | hc
              · exact hacc c hc
              · rcases List.mem_singleton.1 hc with rfl
                rfl
            by_cases h3 : containsPeek st.line_separators ((s2.peek).1) = true
            · simp only [read_without_headerGo, h1, h2, Bool.false_eq_true, if_false, hrc,
                hfc, h3, if_true] at heq
              injection heq with heq
              subst heq
              refine ⟨hacc2, by simp, fun _ hlen => ?_, fun e he => by simp at he⟩
              exfalso
              simp at hlen
            · simp only [read_without_headerGo, h1, h2, Bool.false_eq_true, if_false, hrc,
                hfc, h3, if_false] at heq
              have hres := ih _ _ _ _ heq hacc2
              refine ⟨hres.1, ?_, fun hn hlen => ?_, hres.2.2.2⟩
              · calc acc.length ≤ (acc ++ [_]).length := by simp
                  _ ≤ res.2.1.length := hres.2.1
              · exfalso
                have := hres.2.1
                simp at this
                omega

/-- C1: on every successful `read`, all columns of the resulting table have
data sequences of equal length, namely the number of data rows read between
the header (if any) and end of input: the final row counter minus one when a
header row was read, and the final row counter otherwise. -/
theorem claim_C1 :
    ∀ (st : Settings) (prior : List Column) (s : IStream) (out : ReadOutcome),
      read st prior s = some out → out.error = none →
      ∀ c ∈ out.cols, c.data.length =
        (if out.header = HeaderType.FirstRow then out.row - 1 else out.row) := by
  intro st prior s out hread herr
  by_cases h1 : s.eofbit = true
  · simp only [read, if_pos h1] at hread
    injection hread with hread
    subst hread
    simp at herr
  · replace h1 : s.eofbit = false := by simpa using h1
    by_cases h2 : s.badbit = true
    · simp only [read, h1, Bool.false_eq_true, if_false, if_pos h2] at hread
      injection hread with hread
      subst hread
      simp at herr
    · replace h2 : s.badbit = false := by simpa using h2
      simp only [read, h1, h2, Bool.false_eq_true, if_false] at hread
      rcases hres : resolve_header st s with ⟨ht, sh⟩
      rw [hres] at hread
      dsimp only at hread
      by_cases hft : ht = HeaderType.FirstRow
      · rw [if_pos hft] at hread
        rcases hphase : read_with_headerGo st (s.data.length + 2) 0 [] sh
          with _ | ⟨err, cols, s2⟩
        · rw [hphase] at hread
          simp at hread
        · rcases err with _ | e
          · rw [hphase] at hread
            dsimp only at hread
            rcases hmain : mainLoopGo st (s.data.length + 2) ⟨cols, 0, 1, s2⟩
              with _ | ⟨err2, rst⟩
            · rw [hmain] at hread
              simp at hread
            · rw [hmain] at hread
              dsimp only at hread
              injection hread with hread
              subst hread
              subst herr
              have hph := read_with_headerGo_ok st _ _ _ _ _ hphase
                (by intro c hc; simp at hc)
              have hml := mainLoopGo_ok st 0 _ _ _ hmain
                (by
                  intro i c hget
                  have hc := hph.1 c (List.get?_mem hget)
                  simp [hc])
                (fun _ => rfl) (Or.inl rfl)
                (by
                  intro hl
                  exact hph.2.2.1 rfl (by simpa using hl))
              intro c hc
              have h4 : c.data.length + 1 = rst.row + 0 := hml.1 rfl c hc
              show c.data.length = if ht = HeaderType.FirstRow then rst.row - 1 else rst.row
              rw [if_pos hft]
              omega
          · rw [hphase] at hread
            dsimp only at hread
            injection hread with hread
            subst hread
            simp at herr
      · rw [if_neg hft] at hread
        rcases hphase : read_without_headerGo st (s.data.length + 2) 0 [] sh
          with _ | ⟨err, cols, s2⟩
        · rw [hphase] at hread
          simp at hread
        · rcases err with _ | e
          · rw [hphase] at hread
            dsimp only at hread
            rcases hmain : mainLoopGo st (s.data.length + 2) ⟨cols, 0, 1, s2⟩
              with _ | ⟨err2, rst⟩
            · rw [hmain] at hread
              simp at hread
            · rw [hmain] at hread
              dsimp only at hread
              injection hread with hread
              subst hread
              subst herr
              have hph := read_without_headerGo_ok st _ _ _ _ _ hphase
                (by intro c hc; simp at hc)
              have hml := mainLoopGo_ok st 1 _ _ _ hmain
                (by
                  intro i c hget
                  have hc := hph.1 c (List.get?_mem hget)
                  simp [hc])
                (fun _ => rfl) (Or.inl rfl)
                (by
                  intro hl
                  exact hph.2.2.1 rfl (by simpa using hl))
              intro c hc
              have h4 : c.data.length + 1 = rst.row + 1 := hml.1 rfl c hc
              show c.data.length = if ht = HeaderType.FirstRow then rst.row - 1 else rst.row
              rw [if_neg hft]
              omega
          · rw [hphase] at hread
            dsimp only at hread
            injection hread with hread
            subst hread
            simp at herr

/-- C1 witness: the spec's concrete table `Time, Value / 1, 0.5 / 2, 0.25`
parses successfully and both columns have data length 2 = 3 - 1. -/
theorem claim_C1_witness :
    read default_settings []
        (mkStream (ofChars ['T', 'i', 'm', 'e', ',', ' ', 'V', 'a', 'l', 'u', 'e', '\n',
          '1', ',', ' ', '0', '.', '5', '\n', '2', ',', ' ', '0', '.', '2', '5', '\n'])) =
      some ⟨none, [⟨[84, 105, 109, 101], [1, 2]⟩,
            ⟨[86, 97, 108, 117, 101], [mkRat 1 2, mkRat 1 4]⟩], HeaderType.FirstRow, 3⟩ ∧
    (⟨[84, 105, 109, 101], [1, 2]⟩ : Column).data.length = 2 ∧
    (⟨[86, 97, 108, 117, 101], [mkRat 1 2, mkRat 1 4]⟩ : Column).data.length = 2 := by
  have h := claim_C1 default_settings []
    (mkStream (ofChars ['T', 'i', 'm', 'e', ',', ' ', 'V', 'a', 'l', 'u', 'e', '\n',
      '1', ',', ' ', '0', '.', '5', '\n', '2', ',', ' ', '0', '.', '2', '5', '\n']))
    ⟨none, [⟨[84, 105, 109, 101], [1, 2]⟩,
      ⟨[86, 97, 108, 117, 101], [mkRat 1 2, mkRat 1 4]⟩], HeaderType.FirstRow, 3⟩
    (by decide) rfl
  have h2 := h ⟨[84, 105, 109, 101], [1, 2]⟩ (List.mem_cons_self _ _)
  have h3 := h ⟨[86, 97, 108, 117, 101], [mkRat 1 2, mkRat 1 4]⟩
    (List.mem_cons_of_mem _ (List.mem_cons_self _ _))
  exact ⟨by decide, h2.trans (by decide), h3.trans (by decide)⟩

/-- C3 counterexample: the input `a, b\n1, 2, 3\n`, whose second data row has
more cells than the two established columns, fails with
`ExpectedLineSeparator`, not with `CellOutOfRange` as the claim states. -/
theorem claim_C3_counterexample :
    read default_settings []
        (mkStream (ofChars ['a', ',', ' ', 'b', '\n', '1', ',', ' ', '2', ',', ' ', '3', '\n'])) =
      some ⟨some ⟨ErrorCase.ExpectedLineSeparator, [50], [10], 1, 1, 44⟩,
            [⟨[97], [1]⟩, ⟨[98], [2]⟩], HeaderType.FirstRow, 1⟩ ∧
    ErrorCase.ExpectedLineSeparator ≠ ErrorCase.CellOutOfRange := by
  exact ⟨by decide, by decide⟩

/-- C3 (amended): a data row with more cells than the established column
count fails with `ExpectedLineSeparator`: the check fires at the last column
when the next character is not a line separator, and the `CellOutOfRange`
branch is unreachable — no outcome of `read` ever carries that kind. -/
theorem claim_C3 :
    (∀ (st : Settings) (fuel : Nat) (r : ReadState) (tok : List Nat) (s2 : IStream)
      (v : ℚ) (c : Nat),
      r.s.eofbit = false → r.s.badbit = false →
      (skip_whitespaces r.s).eofbit = false →
      read_cell st (skip_whitespaces r.s) = (some tok, s2) →
      from_chars (trim_whitespaces tok) = some v →
      r.column < r.cols.length →
      s2.eofbit = false → s2.badbit = false → s2.data.head? = some c →
      c ∉ st.line_separators →
      r.column + 1 = r.cols.length →
      mainLoopGo st (fuel + 1) r =
        some (some ⟨ErrorCase.ExpectedLineSeparator, trim_whitespaces tok,
            st.line_separators, r.column, r.row, c⟩,
          ⟨appendAt r.cols r.column v, r.column, r.row, s2⟩)) ∧
    (∀ (st : Settings) (prior : List Column) (s : IStream) (out : ReadOutcome)
      (e : ReadError),
      read st prior s = some out → out.error = some e →
      e.error_case ≠ ErrorCase.CellOutOfRange) := by
  constructor
  · intro st fuel r tok s2 v c he hb hse hrc hfc hlt h7 h8 h9 h10 h11
    have hp : s2.peek = (some c, s2) := IStream.peek_some h7 h8 h9
    have hlenA := appendAt_length r.cols r.column v
    simp [mainLoopGo, he, hb, hse, hrc, hfc, hlt, hp, containsPeek, h10, h7, hlenA, h11]
  · intro st prior s out e hread herr
    by_cases h1 : s.eofbit = true
    · simp only [read, if_pos h1] at hread
      injection hread with hread
      subst hread
      injection herr with herr
      subst herr
      simp
    · replace h1 : s.eofbit = false := by simpa using h1
      by_cases h2 : s.badbit = true
      · simp only [read, h1, Bool.false_eq_true, if_false, if_pos h2] at hread
        injection hread with hread
        subst hread
        injection herr with herr
        subst herr
        simp
      · replace h2 : s.badbit = false := by simpa using h2
        simp only [read, h1, h2, Bool.false_eq_true, if_false] at hread
        rcases hres : resolve_header st s with ⟨ht, sh⟩
        rw [hres] at hread
        dsimp only at hread
        by_cases hft : ht = HeaderType.FirstRow
        · rw [if_pos hft] at hread
          rcases hphase : read_with_headerGo st (s.data.length + 2) 0 [] sh
            with _ | ⟨err, cols, s2⟩
          · rw [hphase] at hread
            simp at hread
          · rcases err with _ | ep
            · rw [hphase] at hread
              dsimp only at hread
              rcases hmain : mainLoopGo st (s.data.length + 2) ⟨cols, 0, 1, s2⟩
                with _ | ⟨err2, rst⟩
              · rw [hmain] at hread
                simp at hread
              · rw [hmain] at hread
                dsimp only at hread
                injection hread with hread
                subst hread
                subst herr
                have hph := read_with_headerGo_ok st _ _ _ _ _ hphase
                  (by intro c hc; simp at hc)
                have hml := mainLoopGo_ok st 0 _ _ _ hmain
                  (by
                    intro i c hget
                    have hc := hph.1 c (List.get?_mem hget)
                    simp [hc])
                  (fun _ => rfl) (Or.inl rfl)
                  (by
                    intro hl
                    exact hph.2.2.1 rfl (by simpa using hl))
                exact hml.2 e rfl
            · rw [hphase] at hread
              dsimp only at hread
              injection hread with hread
              subst hread
              injection herr with herr
              subst herr
              have hph := read_with_headerGo_ok st _ _ _ _ _ hphase
                (by intro c hc; simp at hc)
              exact hph.2.2.2 ep rfl
        · rw [if_neg hft] at hread
          rcases hphase : read_without_headerGo st (s.data.length + 2) 0 [] sh
            with _ | ⟨err, cols, s2⟩
          · rw [hphase] at hread
            simp at hread
          · rcases err with _ | ep
            · rw [hphase] at hread
              dsimp only at hread
              rcases hmain : mainLoopGo st (s.data.length + 2) ⟨cols, 0, 1, s2⟩
                with _ | ⟨err2, rst⟩
              · rw [hmain] at hread
                simp at hread
              · rw [hmain] at hread
                dsimp only at hread
                injection hread with hread
                subst hread
                subst herr
                have hph := read_without_headerGo_ok st _ _ _ _ _ hphase
                  (by intro c hc; simp at hc)
                have hml := mainLoopGo_ok st 1 _ _ _ hmain
                  (by
                    intro i c hget
                    have hc := hph.1 c (List.get?_mem hget)
                    simp [hc])
                  (fun _ => rfl) (Or.inl rfl)
                  (by
                    intro hl
                    exact hph.2.2.1 rfl (by simpa using hl))
                exact hml.2 e rfl
            · rw [hphase] at hread
              dsimp only at hread
              injection hread with hread
              subst hread
              injection herr with herr
              subst herr
              have hph := read_without_headerGo_ok st _ _ _ _ _ hphase
                (by intro c hc; simp at hc)
              exact hph.2.2.2 ep rfl

/-- C3 witness: the loop-level statement applied to a concrete state with one
declared column and the remaining input `5,\n` at column 0. -/
theorem claim_C3_witness :
    mainLoopGo default_settings 6 ⟨[⟨[], []⟩], 0, 1, mkStream [53, 44, 10]⟩ =
      some (some ⟨ErrorCase.ExpectedLineSeparator, [53], [10], 0, 1, 44⟩,
        ⟨[⟨[], [5]⟩], 0, 1, mkStream [44, 10]⟩) := by
  have h := claim_C3.1 default_settings 5 ⟨[⟨[], []⟩], 0, 1, mkStream [53, 44, 10]⟩
    [53] (mkStream [44, 10]) (mkRat 5 1) 44 rfl rfl (by decide) (by decide) (by decide)
    (by decide) rfl rfl rfl (by decide) (by decide)
  simpa using h

-- Auxiliary facts about write: minima over column lengths and
-- separator counts in emitted rows.

theorem foldl_min_le_init :
    ∀ (cols : List Column) (a : Nat),
      cols.foldl (fun m c => min c.data.length m) a ≤ a := by
  intro cols
  induction cols with
  | nil => intro a; simp
  | cons x xs ih =>
    intro a
    calc (x :: xs).foldl (fun m c => min c.data.length m) a
        = xs.foldl (fun m c => min c.data.length m) (min x.data.length a) := by
          simp [List.foldl_cons]
      _ ≤ min x.data.length a := ih _
      _ ≤ a := Nat.min_le_right _ _

theorem foldl_min_le_mem :
    ∀ (cols : List Column) (a : Nat) (c : Column), c ∈ cols →
      cols.foldl (fun m c => min c.data.length m) a ≤ c.data.length := by
  intro cols
  induction cols with
  | nil => intro a c hc; simp at hc
  | cons x xs ih =>
    intro a c hc
    rcases List.mem_cons.1 hc with rfl | hc
    · calc (c :: xs).foldl (fun m c => min c.data.length m) a
          = xs.foldl (fun m c => min c.data.length m) (min c.data.length a) := by
            simp [List.foldl_cons]
        _ ≤ min c.data.length a := foldl_min_le_init _ _
        _ ≤ c.data.length := Nat.min_le_left _ _
    · simpa [List.foldl_cons] using ih (min x.data.length a) c hc

theorem min_data_length_le {cols : List Column} {c : Column} (hc : c ∈ cols) :
    min_data_length cols ≤ c.data.length :=
  foldl_min_le_mem cols _ c hc

theorem foldl_min_all_eq :
    ∀ (cols : List Column) (a M : Nat),
      (∀ c ∈ cols, c.data.length = M) → M ≤ a → cols ≠ [] →
      cols.foldl (fun m c => min c.data.length m) a = M := by
  intro cols
  induction cols with
  | nil => intro a M _ _ h; exact absurd rfl h
  | cons x xs ih =>
    intro a M hall hM _
    have hx : x.data.length = M := hall x (List.mem_cons_self _ _)
    by_cases hxs : xs = []
    · subst hxs
      simp [List.foldl_cons, hx, Nat.min_eq_left hM]
    · calc (x :: xs).foldl (fun m c => min c.data.length m) a
          = xs.foldl (fun m c => min c.data.length m) (min x.data.length a) := by
            simp [List.foldl_cons]
        _ = M := ih _ M (fun c hc => hall c (List.mem_cons_of_mem _ hc))
            (by rw [hx]; exact Nat.le_min.2 ⟨le_refl M, hM⟩) hxs

theorem listFlatMapCongr :
    ∀ (l : List Nat) (f g : Nat → List Nat), (∀ x ∈ l, f x = g x) →
      l.flatMap f = l.flatMap g := by
  intro l
  induction l with
  | nil => intro f g _; rfl
  | cons x xs ih =>
    intro f g h
    simp only [List.flatMap_cons]
    rw [h x (List.mem_cons_self _ _), ih f g (fun y hy => h y (List.mem_cons_of_mem _ hy))]

theorem natDigitsGo_mem :
    ∀ (fuel n b : Nat), b ∈ natDigitsGo fuel n → 48 ≤ b ∧ b ≤ 57 := by
  intro fuel
  induction fuel with
  | zero => intro n b hb; simp [natDigitsGo] at hb
  | succ m ih =>
    intro n b hb
    simp only [natDigitsGo] at hb
    by_cases hn : n < 10
    · rw [if_pos hn] at hb
      rcases List.mem_singleton.1 hb with rfl
      omega
    · rw [if_neg hn] at hb
      rcases List.mem_append.1 hb with hb | hb
      · exact ih _ _ hb
      · rcases List.mem_singleton.1 hb with rfl
        have : n % 10 < 10 := Nat.mod_lt _ (by omega)
        omega

theorem renderValue_mem {q : ℚ} {b : Nat} (hb : b ∈ renderValue q) :
    b = 45 ∨ b = 47 ∨ (48 ≤ b ∧ b ≤ 57) := by
  simp only [renderValue] at hb
  rcases List.mem_append.1 hb with hb | hb
  · rcases List.mem_append.1 hb with hb | hb
    · by_cases hq : q.num < 0
      · rw [if_pos hq] at hb
        rcases List.mem_singleton.1 hb with rfl
        exact Or.inl rfl
      · rw [if_neg hq] at hb
        simp at hb
    · exact Or.inr (Or.inr (natDigitsGo_mem _ _ _ hb))
  · by_cases hd : q.den = 1
    · rw [if_pos hd] at hb
      simp at hb
    · rw [if_neg hd] at hb
      rcases List.mem_cons.1 hb with rfl | hb
      · exact Or.inr (Or.inl rfl)
      · exact Or.inr (Or.inr (natDigitsGo_mem _ _ _ hb))

theorem emitRowAux_count :
    ∀ (cells : List (List Nat)) (vs ls : Nat), cells ≠ [] → vs ≠ ls →
      (∀ cell ∈ cells, ls ∉ cell) →
      (emitRowAux vs ls cells).count ls = 1 := by
  intro cells
  induction cells with
  | nil => intro vs ls h _ _; exact absurd rfl h
  | cons x xs ih =>
    intro vs ls _ hvs hmem
    by_cases hxs : xs = []
    · subst hxs
      simp only [emitRowAux]
      rw [List.count_append]
      have hx : x.count ls = 0 :=
        List.count_eq_zero.2 (hmem x (List.mem_cons_self _ _))
      simp [hx]
    · rcases List.exists_cons_of_ne_nil hxs with ⟨y, ys, rfl⟩
      simp only [emitRowAux]
      rw [List.count_append, List.count_cons]
      have hx : x.count ls = 0 :=
        List.count_eq_zero.2 (hmem x (List.mem_cons_self _ _))
      have hrec := ih vs ls (by simp) hvs
        (fun cell hc => hmem cell (List.mem_cons_of_mem _ hc))
      rw [hx, hrec]
      simp [hvs]

/-- C9: CSVd::write is a total function that never fails: it writes nothing for an
empty table, its output only depends on the first min-data-length entries of every
column (truncating each column to the minimum data length leaves the output
unchanged), and for a nonempty table the data block contains exactly
min-data-length line separators, i.e. one complete row per index below the
shortest column. -/
theorem claim_C9 :
    (∀ st : Settings, write st [] = []) ∧
    (∀ (st : Settings) (cols : List Column),
      write st cols =
        write st (cols.map (fun c => { c with data := c.data.take (min_data_length cols) }))) ∧
    (∀ cols : List Column, cols ≠ [] →
      (write_data default_settings cols).count 10 = min_data_length cols) := by
  refine ⟨fun st => rfl, ?_, ?_⟩
  · intro st cols
    by_cases hnil : cols = []
    · subst hnil
      rfl
    · have hmapnil :
          cols.map (fun c => { c with data := c.data.take (min_data_length cols) }) ≠ [] := by
        simpa [List.map_eq_nil_iff] using hnil
      have hlen : ∀ c ∈ cols.map
          (fun c => { c with data := c.data.take (min_data_length cols) }),
          c.data.length = min_data_length cols := by
        intro c hc
        rcases List.mem_map.1 hc with ⟨c0, hc0, rfl⟩
        show (c0.data.take (min_data_length cols)).length = min_data_length cols
        rw [List.length_take]
        exact Nat.min_eq_left (min_data_length_le hc0)
      have hM : min_data_length
          (cols.map (fun c => { c with data := c.data.take (min_data_length cols) })) =
          min_data_length cols :=
        foldl_min_all_eq _ _ _ hlen (foldl_min_le_init cols _) hmapnil
      have hhead : write_header st
          (cols.map (fun c => { c with data := c.data.take (min_data_length cols) })) =
          write_header st cols := by
        unfold write_header resolved_write_header
        have hany : (cols.map
            (fun c => { c with data := c.data.take (min_data_length cols) })).any
            (fun c => !c.name.isEmpty) = cols.any (fun c => !c.name.isEmpty) := by
          rw [List.any_map]
          rfl
        rw [hany]
        have hcells : ((cols.map
            (fun c => { c with data := c.data.take (min_data_length cols) })).enum.map
              (fun p => header_cell st p.1 p.2)) =
            cols.enum.map (fun p => header_cell st p.1 p.2) := by
          rw [List.enum_map, List.map_map]
          rfl
        rw [hcells]
      have hdata : write_data st
          (cols.map (fun c => { c with data := c.data.take (min_data_length cols) })) =
          write_data st cols := by
        unfold write_data
        rw [hM]
        apply listFlatMapCongr
        intro r hr
        have hrM : r < min_data_length cols := List.mem_range.1 hr
        congr 1
        rw [List.map_map]
        apply List.map_congr_left
        intro c hc
        show renderValue (((c.data.take (min_data_length cols)).get? r).getD 0) =
          renderValue ((c.data.get? r).getD 0)
        rw [List.get?_take hrM]
      show write st cols = write st (cols.map _)
      unfold write
      rw [if_neg (by simp [hnil]), if_neg (by simp [List.map_eq_nil_iff, hnil]), hhead, hdata]
  · intro cols hnil
    show ((List.range (min_data_length cols)).flatMap (fun r =>
        emitRowAux 44 10
          (cols.map (fun c => renderValue ((c.data.get? r).getD 0))))).count 10 =
      min_data_length cols
    generalize min_data_length cols = n
    induction n with
    | zero => rfl
    | succ m ih =>
      rw [List.range_succ, List.flatMap_append, List.count_append, ih]
      simp only [List.flatMap_cons, List.flatMap_nil, List.append_nil]
      have hne : cols.map (fun c => renderValue ((c.data.get? m).getD 0)) ≠ [] := by
        simpa [List.map_eq_nil_iff] using hnil
      have hmem : ∀ cell ∈ cols.map (fun c => renderValue ((c.data.get? m).getD 0)),
          10 ∉ cell := by
        intro cell hc
        rcases List.mem_map.1 hc with ⟨c0, _, rfl⟩
        intro hb
        rcases renderValue_mem hb with h | h | h <;> omega
      rw [emitRowAux_count _ 44 10 hne (by decide) hmem]

/-- Witness for C9 at a concrete two-column table with column lengths 3 and 2:
truncating the first column to length 2 leaves the output unchanged, and the
data block holds exactly 2 line separators. -/
theorem claim_C9_witness :
    write default_settings [⟨[97], [1, 2, 3]⟩, ⟨[98], [4, 5]⟩] =
      write default_settings [⟨[97], [1, 2]⟩, ⟨[98], [4, 5]⟩] ∧
    (write_data default_settings [⟨[97], [1, 2, 3]⟩, ⟨[98], [4, 5]⟩]).count 10 = 2 := by
  constructor
  · exact (claim_C9.2.1 default_settings [⟨[97], [1, 2, 3]⟩, ⟨[98], [4, 5]⟩]).trans (by decide)
  · exact (claim_C9.2.2 [⟨[97], [1, 2, 3]⟩, ⟨[98], [4, 5]⟩] (by decide)).trans (by decide)

theorem IStream.peek_data_eq (s : IStream) : ((s.peek).2).data = s.data := by
  rcases s with ⟨data, eb, bb⟩
  cases eb <;> cases bb <;> cases data <;> simp [IStream.peek, IStream.good]

theorem IStream.peek_badbit_eq (s : IStream) : ((s.peek).2).badbit = s.badbit := by
  rcases s with ⟨data, eb, bb⟩
  cases eb <;> cases bb <;> cases data <;> simp [IStream.peek, IStream.good]

theorem IStream.get_badbit_eq (s : IStream) : ((s.get).2).badbit = s.badbit := by
  rcases s with ⟨data, eb, bb⟩
  cases eb <;> cases bb <;> cases data <;> simp [IStream.get, IStream.good]

theorem IStream.get_data_le (s : IStream) : ((s.get).2).data.length ≤ s.data.length := by
  rcases s with ⟨data, eb, bb⟩
  cases eb <;> cases bb <;> cases data <;> simp [IStream.get, IStream.good]

theorem IStream.peek_mu (s : IStream) : mu ((s.peek).2) ≤ mu s := by
  rcases s with ⟨data, eb, bb⟩
  cases eb <;> cases bb <;> cases data <;> simp [mu, IStream.peek, IStream.good]

theorem IStream.get_mu (s : IStream) : mu ((s.get).2) ≤ mu s := by
  rcases s with ⟨data, eb, bb⟩
  cases eb <;> cases bb <;> cases data <;> simp [mu, IStream.get, IStream.good]

theorem IStream.ignore_mu (s : IStream) : mu (s.ignore) ≤ mu s :=
  IStream.get_mu s

theorem IStream.peek_none_eof {s : IStream} (hb : s.badbit = false)
    (h : (s.peek).1 = none) : ((s.peek).2).eofbit = true := by
  rcases s with ⟨data, eb, bb⟩
  cases eb <;> cases bb <;> cases data <;> simp_all [IStream.peek, IStream.good]

theorem skipGo_data_le (cs : List Nat) :
    ∀ (l : List Nat) (s : IStream), s.data = l →
      (skipGo cs l s).data.length ≤ s.data.length := by
  intro l
  induction l with
  | nil => intro s hd; simp [skipGo, hd]
  | cons c rest ih =>
    intro s hd
    simp only [skipGo]
    split
    · calc (skipGo cs rest { s with data := rest }).data.length
          ≤ rest.length := ih { s with data := rest } rfl
        _ ≤ s.data.length := by rw [hd]; simp
    · exact le_refl _

theorem skipGo_mu (cs : List Nat) :
    ∀ (l : List Nat) (s : IStream), s.data = l →
      mu (skipGo cs l s) ≤ mu s := by
  intro l
  induction l with
  | nil => intro s hd; simp [mu, skipGo, hd]
  | cons c rest ih =>
    intro s hd
    simp only [skipGo]
    split
    · calc mu (skipGo cs rest { s with data := rest })
          ≤ mu { s with data := rest } := ih { s with data := rest } rfl
        _ ≤ mu s := by simp [mu, hd]
    · exact le_refl _

theorem skipGo_badbit_eq (cs : List Nat) :
    ∀ (l : List Nat) (s : IStream), (skipGo cs l s).badbit = s.badbit := by
  intro l
  induction l with
  | nil => intro s; rfl
  | cons c rest ih =>
    intro s
    simp only [skipGo]
    split
    · exact ih _
    · rfl

theorem skip_data_le (s : IStream) (cs : List Nat) :
    (skip s cs).data.length ≤ s.data.length := by
  unfold skip
  split
  · exact le_refl _
  · exact skipGo_data_le cs s.data s rfl

theorem skip_mu (s : IStream) (cs : List Nat) : mu (skip s cs) ≤ mu s := by
  unfold skip
  split
  · exact le_refl _
  · exact skipGo_mu cs s.data s rfl

theorem skip_badbit_eq (s : IStream) (cs : List Nat) :
    (skip s cs).badbit = s.badbit := by
  unfold skip
  split
  · rfl
  · exact skipGo_badbit_eq cs s.data s

theorem read_cellGo_data_le (st : Settings) :
    ∀ (space : Nat) (q : Bool) (acc : List Nat) (s : IStream),
      ((read_cellGo st space q acc s).2).data.length ≤ s.data.length := by
  intro space
  induction space with
  | zero =>
    intro q acc s
    simp only [read_cellGo]
    split <;> exact le_refl _
  | succ m ih =>
    intro q acc s
    simp only [read_cellGo]
    split
    · exact le_refl _
    · repeat' split
      all_goals first
        | exact le_of_eq (congrArg List.length (IStream.peek_data_eq s))
        | exact le_trans (ih _ _ _) (le_trans (IStream.get_data_le _)
            (le_of_eq (congrArg List.length (IStream.peek_data_eq s))))

theorem read_cellGo_mu (st : Settings) :
    ∀ (space : Nat) (q : Bool) (acc : List Nat) (s : IStream),
      mu ((read_cellGo st space q acc s).2) ≤ mu s := by
  intro space
  induction space with
  | zero =>
    intro q acc s
    simp only [read_cellGo]
    split <;> exact le_refl _
  | succ m ih =>
    intro q acc s
    simp only [read_cellGo]
    split
    · exact le_refl _
    · repeat' split
      all_goals first
        | exact IStream.peek_mu s
        | exact le_trans (ih _ _ _) (le_trans (IStream.get_mu _) (IStream.peek_mu s))

theorem read_cellGo_badbit_eq (st : Settings) :
    ∀ (space : Nat) (q : Bool) (acc : List Nat) (s : IStream),
      ((read_cellGo st space q acc s).2).badbit = s.badbit := by
  intro space
  induction space with
  | zero =>
    intro q acc s
    simp only [read_cellGo]
    split <;> rfl
  | succ m ih =>
    intro q acc s
    simp only [read_cellGo]
    split
    · rfl
    · repeat' split
      all_goals first
        | exact IStream.peek_badbit_eq s
        | exact (ih _ _ _).trans ((IStream.get_badbit_eq _).trans (IStream.peek_badbit_eq s))

theorem read_with_headerGo_stream_mu (st : Settings) :
    ∀ (fuel col0 : Nat) (acc : List Column) (s : IStream)
      (res : Option ReadError × List Column × IStream),
      read_with_headerGo st fuel col0 acc s = some res → mu (res.2.2) ≤ mu s := by
  intro fuel
  induction fuel with
  | zero => intro col0 acc s res heq; simp [read_with_headerGo] at heq
  | succ n ih =>
    intro col0 acc s res heq
    by_cases h1 : s.eofbit = true
    · simp only [read_with_headerGo, if_pos h1] at heq
      injection heq with heq
      subst heq
      exact le_refl _
    · replace h1 : s.eofbit = false := by simpa using h1
      by_cases h2 : s.badbit = true
      · simp only [read_with_headerGo, h1, Bool.false_eq_true, if_false, if_pos h2] at heq
        injection heq with heq
        subst heq
        exact le_refl _
      · replace h2 : s.badbit = false := by simpa using h2
        have hcell : mu ((read_cell st s).2) ≤ mu s := read_cellGo_mu st 128 false [] s
        rcases hrc : read_cell st s with ⟨otok, s2⟩
        rw [hrc] at hcell
        rcases otok with _ | tok
        · simp only [read_with_headerGo, h1, h2, Bool.false_eq_true, if_false, hrc] at heq
          injection heq with heq
          subst heq
          exact hcell
        · have hpkmu : mu ((s2.peek).2) ≤ mu s2 := IStream.peek_mu s2
          rcases hpk : s2.peek with ⟨oc, s3⟩
          rw [hpk] at hpkmu
          have higmu : mu (s3.ignore) ≤ mu s := by
            calc mu (s3.ignore) ≤ mu s3 := IStream.ignore_mu s3
              _ ≤ mu s2 := hpkmu
              _ ≤ mu s := hcell
          by_cases h3 : containsPeek st.line_separators oc = true
          · simp only [read_with_headerGo, h1, h2, Bool.false_eq_true, if_false, hrc, hpk,
              h3, if_true] at heq
            injection heq with heq
            subst heq
            exact higmu
          · simp only [read_with_headerGo, h1, h2, Bool.false_eq_true, if_false, hrc, hpk,
              h3, if_false] at heq
            exact le_trans (ih _ _ _ _ heq) higmu

theorem read_without_headerGo_stream_mu (st : Settings) :
    ∀ (fuel col0 : Nat) (acc : List Column) (s : IStream)
      (res : Option ReadError × List Column × IStream),
      read_without_headerGo st fuel col0 acc s = some res → mu (res.2.2) ≤ mu s := by
  intro fuel
  induction fuel with
  | zero => intro col0 acc s res heq; simp [read_without_headerGo] at heq
  | succ n ih =>
    intro col0 acc s res heq
    by_cases h1 : s.eofbit = true
    · simp only [read_without_headerGo, if_pos h1] at heq
      injection heq with heq
      subst heq
      exact le_refl _
    · replace h1 : s.eofbit = false := by simpa using h1
      by_cases h2 : s.badbit = true
      · simp only [read_without_headerGo, h1, Bool.false_eq_true, if_false, if_pos h2] at heq
        injection heq with heq
        subst heq
        exact le_refl _
      · replace h2 : s.badbit = false := by simpa using h2
        have hcell : mu ((read_cell st s).2) ≤ mu s := read_cellGo_mu st 128 false [] s
        rcases hrc : read_cell st s with ⟨otok, s2⟩
        rw [hrc] at hcell
        rcases otok with _ | tok
        · simp only [read_without_headerGo, h1, h2, Bool.false_eq_true, if_false, hrc] at heq
          injection heq with heq
          subst heq
          exact hcell
        · rcases hfc : from_chars (if st.auto_quotes = true then
              trim (trim_whitespaces tok) st.quotes else trim_whitespaces tok) with _ | v
          · simp only [read_without_headerGo, h1, h2, Bool.false_eq_true, if_false, hrc,
              hfc] at heq
            injection heq with heq
            subst heq
            exact hcell
          · have hpkmu : mu ((s2.peek).2) ≤ mu s2 := IStream.peek_mu s2
            rcases hpk : s2.peek with ⟨oc, s3⟩
            rw [hpk] at hpkmu
            have higmu : mu (s3.ignore) ≤ mu s := by
              calc mu (s3.ignore) ≤ mu s3 := IStream.ignore_mu s3
                _ ≤ mu s2 := hpkmu
                _ ≤ mu s := hcell
            by_cases h3 : containsPeek st.line_separators oc = true
            · simp only [read_without_headerGo, h1, h2, Bool.false_eq_true, if_false, hrc,
                hfc, hpk, h3, if_true] at heq
              injection heq with heq
              subst heq
              exact higmu
            · simp only [read_without_headerGo, h1, h2, Bool.false_eq_true, if_false, hrc,
                hfc, hpk, h3, if_false] at heq
              exact le_trans (ih _ _ _ _ heq) higmu

theorem ignore_after_peek_mu {s2 : IStream} {oc : Option Nat} {s3 : IStream}
    (hb2 : s2.badbit = false) (hpk : s2.peek = (oc, s3)) :
    mu (s3.ignore) ≤ s2.data.length := by
  rcases oc with _ | c
  · have h4 : s3.eofbit = true := by
      have h := IStream.peek_none_eof hb2 (show (s2.peek).1 = none by rw [hpk])
      rw [hpk] at h
      exact h
    rw [IStream.ignore_eof h4]
    have hd : s3.data = s2.data := by
      have h := IStream.peek_data_eq s2
      rw [hpk] at h
      exact h
    simp [mu, h4, hd]
  · obtain ⟨hse2, hsb2, hsd2⟩ := IStream.peek_fst_some (s := s2) (c := c)
      (show (s2.peek).1 = some c by rw [hpk])
    have hs3 : s3 = s2 := by
      have h' := (IStream.peek_some hse2 hsb2 hsd2).symm.trans hpk
      exact (congrArg Prod.snd h').symm
    rw [hs3]
    rcases hd2 : s2.data with _ | ⟨a, l⟩
    · rw [hd2] at hsd2
      simp at hsd2
    · rw [IStream.ignore_cons hse2 hsb2 hd2]
      simp [mu, hse2, hd2]

theorem read_with_headerGo_ne_none (st : Settings) :
    ∀ (fuel col0 : Nat) (acc : List Column) (s : IStream),
      mu s < fuel → read_with_headerGo st fuel col0 acc s ≠ none := by
  intro fuel
  induction fuel with
  | zero => intro col0 acc s hmu; exact absurd hmu (by omega)
  | succ n ih =>
    intro col0 acc s hmu
    by_cases h1 : s.eofbit = true
    · simp [read_with_headerGo, h1]
    · replace h1 : s.eofbit = false := by simpa using h1
      have hmus : mu s = s.data.length + 1 := by simp [mu, h1]
      by_cases h2 : s.badbit = true
      · simp [read_with_headerGo, h1, h2]
      · replace h2 : s.badbit = false := by simpa using h2
        have hcell : ((read_cell st s).2).data.length ≤ s.data.length :=
          read_cellGo_data_le st 128 false [] s
        have hbad : ((read_cell st s).2).badbit = s.badbit :=
          read_cellGo_badbit_eq st 128 false [] s
        rcases hrc : read_cell st s with ⟨otok, s2⟩
        rw [hrc] at hcell hbad
        replace hcell : s2.data.length ≤ s.data.length := hcell
        replace hbad : s2.badbit = s.badbit := hbad
        rcases otok with _ | tok
        · simp [read_with_headerGo, h1, h2, hrc]
        · rcases hpk : s2.peek with ⟨oc, s3⟩
          have hig : mu (s3.ignore) ≤ s2.data.length :=
            ignore_after_peek_mu (by rw [hbad, h2]) hpk
          by_cases h3 : containsPeek st.line_separators oc = true
          · simp [read_with_headerGo, h1, h2, hrc, hpk, h3]
          · simp only [read_with_headerGo, h1, h2, Bool.false_eq_true, if_false, hrc, hpk,
              h3, if_false]
            exact ih _ _ _ (by omega)

theorem read_without_headerGo_ne_none (st : Settings) :
    ∀ (fuel col0 : Nat) (acc : List Column) (s : IStream),
      mu s < fuel → read_without_headerGo st fuel col0 acc s ≠ none := by
  intro fuel
  induction fuel with
  | zero => intro col0 acc s hmu; exact absurd hmu (by omega)
  | succ n ih =>
    intro col0 acc s hmu
    by_cases h1 : s.eofbit = true
    · simp [read_without_headerGo, h1]
    · replace h1 : s.eofbit = false := by simpa using h1
      have hmus : mu s = s.data.length + 1 := by simp [mu, h1]
      by_cases h2 : s.badbit = true
      · simp [read_without_headerGo, h1, h2]
      · replace h2 : s.badbit = false := by simpa using h2
        have hcell : ((read_cell st s).2).data.length ≤ s.data.length :=
          read_cellGo_data_le st 128 false [] s
        have hbad : ((read_cell st s).2).badbit = s.badbit :=
          read_cellGo_badbit_eq st 128 false [] s
        rcases hrc : read_cell st s with ⟨otok, s2⟩
        rw [hrc] at hcell hbad
        replace hcell : s2.data.length ≤ s.data.length := hcell
        replace hbad : s2.badbit = s.badbit := hbad
        rcases otok with _ | tok
        · simp [read_without_headerGo, h1, h2, hrc]
        · rcases hfc : from_chars (if st.auto_quotes = true then
              trim (trim_whitespaces tok) st.quotes else trim_whitespaces tok) with _ | v
          · simp [read_without_headerGo, h1, h2, hrc, hfc]
          · rcases hpk : s2.peek with ⟨oc, s3⟩
            have hig : mu (s3.ignore) ≤ s2.data.length :=
              ignore_after_peek_mu (by rw [hbad, h2]) hpk
            by_cases h3 : containsPeek st.line_separators oc = true
            · simp [read_without_headerGo, h1, h2, hrc, hfc, hpk, h3]
            · simp only [read_without_headerGo, h1, h2, Bool.false_eq_true, if_false, hrc,
                hfc, hpk, h3, if_false]
              exact ih _ _ _ (by omega)

theorem mainLoopGo_ne_none (st : Settings) :
    ∀ (fuel : Nat) (r : ReadState), mu r.s < fuel → mainLoopGo st fuel r ≠ none := by
  intro fuel
  induction fuel with
  | zero => intro r hmu; exact absurd hmu (by omega)
  | succ n ih =>
    intro r hmu
    by_cases h1 : r.s.eofbit = true
    · simp [mainLoopGo, h1]
    · replace h1 : r.s.eofbit = false := by simpa using h1
      have hmus : mu r.s = r.s.data.length + 1 := by simp [mu, h1]
      by_cases h2 : r.s.badbit = true
      · simp [mainLoopGo, h1, h2]
      · replace h2 : r.s.badbit = false := by simpa using h2
        have hskip : (skip_whitespaces r.s).data.length ≤ r.s.data.length :=
          skip_data_le r.s whitespace_chars
        have hskipbad : (skip_whitespaces r.s).badbit = r.s.badbit :=
          skip_badbit_eq r.s whitespace_chars
        by_cases h3 : (skip_whitespaces r.s).eofbit = true
        · by_cases h4 : r.column = 0
          · simp [mainLoopGo, h1, h2, h3, h4]
          · simp [mainLoopGo, h1, h2, h3, h4]
        · replace h3 : (skip_whitespaces r.s).eofbit = false := by simpa using h3
          have hcell : ((read_cell st (skip_whitespaces r.s)).2).data.length ≤
              (skip_whitespaces r.s).data.length :=
            read_cellGo_data_le st 128 false [] _
          have hbad : ((read_cell st (skip_whitespaces r.s)).2).badbit =
              (skip_whitespaces r.s).badbit :=
            read_cellGo_badbit_eq st 128 false [] _
          rcases hrc : read_cell st (skip_whitespaces r.s) with ⟨otok, s2⟩
          rw [hrc] at hcell hbad
          replace hcell : s2.data.length ≤ (skip_whitespaces r.s).data.length := hcell
          replace hbad : s2.badbit = (skip_whitespaces r.s).badbit := hbad
          rcases otok with _ | tok
          · simp [mainLoopGo, h1, h2, h3, hrc]
          · rcases hfc : from_chars (trim_whitespaces tok) with _ | v
            · simp [mainLoopGo, h1, h2, h3, hrc, hfc]
            · by_cases h5 : r.column < r.cols.length
              · rcases hpk : s2.peek with ⟨oc, s3⟩
                have hig : mu (s3.ignore) ≤ s2.data.length :=
                  ignore_after_peek_mu (by rw [hbad, hskipbad, h2]) hpk
                by_cases h6 : (containsPeek st.line_separators oc || s3.eofbit) = true
                · by_cases h7 : r.column + 1 ≠ (appendAt r.cols r.column v).length
                  · simp [mainLoopGo, h1, h2, h3, hrc, hfc, h5, hpk, h6, h7]
                  · simp only [mainLoopGo, h1, h2, Bool.false_eq_true, if_false, h3, hrc,
                      hfc, if_pos h5, hpk, h6, if_true, if_neg h7]
                    exact ih _ (show mu (s3.ignore) < n by omega)
                · by_cases h8 : r.column + 1 = (appendAt r.cols r.column v).length
                  · simp [mainLoopGo, h1, h2, h3, hrc, hfc, h5, hpk, h6, h8]
                  · by_cases h9 : (!(containsPeek st.value_separators oc)) = true
                    · simp [mainLoopGo, h1, h2, h3, hrc, hfc, h5, hpk, h6, h8, h9]
                    · simp only [mainLoopGo, h1, h2, Bool.false_eq_true, if_false, h3, hrc,
                        hfc, if_pos h5, hpk, h6, if_false, if_neg h8, h9]
                      exact ih _ (show mu (s3.ignore) < n by omega)
              · simp [mainLoopGo, h1, h2, h3, hrc, hfc, h5]

theorem resolve_header_mu (st : Settings) (s : IStream) :
    mu ((resolve_header st s).2) ≤ mu s := by
  simp only [resolve_header]
  split
  · split
    · exact le_trans (IStream.peek_mu _) (skip_mu s whitespace_chars)
    · exact le_trans (IStream.peek_mu _) (skip_mu s whitespace_chars)
  · exact le_refl _

theorem read_ne_none (st : Settings) (prior : List Column) (s : IStream) :
    read st prior s ≠ none := by
  by_cases h1 : s.eofbit = true
  · simp [read, h1]
  · replace h1 : s.eofbit = false := by simpa using h1
    by_cases h2 : s.badbit = true
    · simp [read, h1, h2]
    · replace h2 : s.badbit = false := by simpa using h2
      have hmus : mu s = s.data.length + 1 := by simp [mu, h1]
      simp only [read, h1, h2, Bool.false_eq_true, if_false]
      rcases hres : resolve_header st s with ⟨ht, sh⟩
      have hresmu : mu sh ≤ mu s := by
        have h := resolve_header_mu st s
        rw [hres] at h
        exact h
      dsimp only
      by_cases hft : ht = HeaderType.FirstRow
      · rw [if_pos hft]
        rcases hphase : read_with_headerGo st (s.data.length + 2) 0 [] sh
          with _ | ⟨err, cols, s2⟩
        · exact absurd hphase (read_with_headerGo_ne_none st _ 0 [] sh (by omega))
        · rcases err with _ | e
          · have hs2mu : mu s2 ≤ mu sh :=
              read_with_headerGo_stream_mu st _ _ _ _ _ hphase
            rcases hmain : mainLoopGo st (s.data.length + 2) ⟨cols, 0, 1, s2⟩ with _ | p
            · exact absurd hmain (mainLoopGo_ne_none st _ _
                (show mu s2 < s.data.length + 2 by omega))
            · rcases p with ⟨e, rst⟩
              dsimp only
              rw [hmain]
              rcases e with _ | e <;> simp
          · simp
      · rw [if_neg hft]
        rcases hphase : read_without_headerGo st (s.data.length + 2) 0 [] sh
          with _ | ⟨err, cols, s2⟩
        · exact absurd hphase (read_without_headerGo_ne_none st _ 0 [] sh (by omega))
        · rcases err with _ | e
          · have hs2mu : mu s2 ≤ mu sh :=
              read_without_headerGo_stream_mu st _ _ _ _ _ hphase
            rcases hmain : mainLoopGo st (s.data.length + 2) ⟨cols, 0, 1, s2⟩ with _ | p
            · exact absurd hmain (mainLoopGo_ne_none st _ _
                (show mu s2 < s.data.length + 2 by omega))
            · rcases p with ⟨e, rst⟩
              dsimp only
              rw [hmain]
              rcases e with _ | e <;> simp
          · simp

end Csvd
